import Mathlib

/-!
Verification of the utility module of this repository (`src/zed/src/util.rs`).

The module provides:
* `extend_sorted` — bounded sorted merge of a sorted batch into a sorted vector;
* a message-dispatch loop spawned by `handle_messages`;
* `RandomCharIter` — a pseudo-random character generator;
* `SurfResultExt` — an error-context adapter for HTTP-client results.

We embed each of these shallowly: vectors become `List`, the Rust slice
`binary_search_by` becomes an explicit recursive function mirroring the
standard library's loop, fallible conversions become `Option`, and the
external random source becomes an explicit record of the draws a single
`next` call consumes.
-/

namespace ZedUtil

/-! ### Lawful comparators

`extend_sorted` takes a caller-supplied comparator `cmp : α → α → Ordering`.
Its contract assumes `cmp` behaves like a total order: antisymmetric under
swapping the arguments and transitive on the not-greater relation.
-/

/-- A comparator is lawful when swapping arguments swaps the ordering and the
not-greater relation is transitive, as Rust's `Ord` contract requires. -/
structure IsLawfulCmp {α : Type u} (cmp : α → α → Ordering) : Prop where
  symm : ∀ a b, cmp a b = (cmp b a).swap
  le_trans : ∀ a b c, cmp a b ≠ .gt → cmp b c ≠ .gt → cmp a c ≠ .gt

variable {α : Type u}

theorem IsLawfulCmp.gt_iff_lt {cmp : α → α → Ordering} (h : IsLawfulCmp cmp) (a b : α) :
    cmp a b = .gt ↔ cmp b a = .lt := by
  rw [h.symm a b]
  cases cmp b a <;> simp [Ordering.swap]

theorem IsLawfulCmp.eq_iff_eq {cmp : α → α → Ordering} (h : IsLawfulCmp cmp) (a b : α) :
    cmp a b = .eq ↔ cmp b a = .eq := by
  rw [h.symm a b]
  cases cmp b a <;> simp [Ordering.swap]

theorem IsLawfulCmp.lt_of_lt_of_le {cmp : α → α → Ordering} (h : IsLawfulCmp cmp) {a b c : α}
    (hab : cmp a b = .lt) (hbc : cmp b c ≠ .gt) : cmp a c = .lt := by
  have hab' : cmp a b ≠ .gt := by simp [hab]
  have hac : cmp a c ≠ .gt := h.le_trans a b c hab' hbc
  cases hac' : cmp a c with
  | lt => rfl
  | gt => exact absurd hac' hac
  | eq =>
    exfalso
    have hca : cmp c a = .eq := (h.eq_iff_eq a c).mp hac'
    have hca' : cmp c a ≠ .gt := by simp [hca]
    have hba : cmp b a ≠ .gt := h.le_trans b c a hbc hca'
    exact hba ((h.gt_iff_lt b a).mpr hab)

theorem IsLawfulCmp.lt_of_le_of_lt {cmp : α → α → Ordering} (h : IsLawfulCmp cmp) {a b c : α}
    (hab : cmp a b ≠ .gt) (hbc : cmp b c = .lt) : cmp a c = .lt := by
  have hbc' : cmp b c ≠ .gt := by simp [hbc]
  have hac : cmp a c ≠ .gt := h.le_trans a b c hab hbc'
  cases hac' : cmp a c with
  | lt => rfl
  | gt => exact absurd hac' hac
  | eq =>
    exfalso
    have hca : cmp c a = .eq := (h.eq_iff_eq a c).mp hac'
    have hca' : cmp c a ≠ .gt := by simp [hca]
    have hcb : cmp c b ≠ .gt := h.le_trans c a b hca' hab
    exact hcb ((h.gt_iff_lt c b).mpr hbc)

/-! ### The bounded sorted merge -/

/-- The loop of Rust's `slice::binary_search_by`: maintain `left < right`
bounds, probe the midpoint, and return `Except.ok` on an exact match or
`Except.error` with the insertion point. `f` is the probe closure
(`|m| cmp(m, new_item)` at the call site in `extend_sorted`).

The loop runs while `left < right`; each iteration shrinks `right - left` by
at least one, so running it with `fuel = s.length ≥ right - left` units of
structural fuel reproduces it exactly (when fuel reaches `0` the range is
already empty and both exit with `Err(left)`). -/
def bsLoop (f : α → Ordering) (s : List α) : Nat → Nat → Nat → Except Nat Nat
  | 0, left, _right => .error left
  | fuel + 1, left, right =>
    if left < right then
      let mid := left + (right - left) / 2
      match s[mid]? with
      | none => .error left
      | some m =>
        match f m with
        | .lt => bsLoop f s fuel (mid + 1) right
        | .gt => bsLoop f s fuel left mid
        | .eq => .ok mid
    else
      .error left

/-- Rust's `slice::binary_search_by` on the slice `s`. -/
def binary_search_by (f : α → Ordering) (s : List α) : Except Nat Nat :=
  bsLoop f s s.length 0 s.length

/-- One iteration of the `extend_sorted` loop, processing one new item.
State is the current vector paired with `start_index` (the search floor).
Mirrors `src/zed/src/util.rs` lines 43–55. -/
def extendSortedStep (cmp : α → α → Ordering) (limit : Nat) (st : List α × Nat)
    (new_item : α) : List α × Nat :=
  match binary_search_by (fun m => cmp m new_item) (st.1.drop st.2) with
  | .ok _ => st
  | .error i =>
    let index := st.2 + i
    if st.1.length < limit then
      (st.1.insertIdx index new_item, index)
    else if index < st.1.length then
      (st.1.dropLast.insertIdx index new_item, index)
    else
      (st.1, index)

/-- `extend_sorted` from `src/zed/src/util.rs`: extend a sorted vector with a
sorted sequence of items, maintaining sort order and enforcing a maximum
length. Returns the final vector. -/
def extend_sorted (vec : List α) (new_items : List α) (limit : Nat)
    (cmp : α → α → Ordering) : List α :=
  (new_items.foldl (extendSortedStep cmp limit) (vec, 0)).1

/-- Descending numeric comparator, as `|a, b| b.cmp(a)` in the repository's
`test_extend_sorted`. -/
def descCmp (a b : Nat) : Ordering := compare b a

/-! ### The message-dispatch loop

`handle_messages` spawns a detached task running
`while let Some(message) = messages.recv().await { if let Err(err) = handler.handle(..).await { log::error!(..) } }`.
We model a finite run of the source as the list of messages it yields before
exhaustion, a handler invocation as a function to `Except E Unit`, and the
loop as a recursion that records the trace of invocations (message paired
with the handler's result, in processing order) together with the list of
logged errors. -/

/-- The dispatch loop spawned by `handle_messages`: process each message in
arrival order, log an error result, and continue; stop when the source is
exhausted. Returns the invocation trace and the logged errors. -/
def dispatchLoop {M E : Type u} (handler : M → Except E Unit) :
    List M → List (M × Except E Unit) × List E
  | [] => ([], [])
  | m :: rest =>
    ((m, handler m) :: (dispatchLoop handler rest).1,
      match handler m with
      | .error e => e :: (dispatchLoop handler rest).2
      | .ok _ => (dispatchLoop handler rest).2)

/-! ### The random character generator

`RandomCharIter::next` consumes up to four weighted boolean draws and one
ranged draw from the external random source. We record the outcome of each
`gen_bool` call and the raw entropy behind the single ranged draw
(`gen_range`/`choose`) a call can make; `gen_range lo hi` yielding a value in
`[lo, hi)` is modelled as `lo + raw % (hi - lo)`, and `choose` on a slice as
indexing by `raw % length`. -/

/-- The draws one `RandomCharIter::next` call can consume from the rng. -/
structure RngDraws where
  coinNewline : Bool
  coinGreek : Bool
  coinThreeByte : Bool
  coinFourByte : Bool
  raw : Nat

/-- `std::char::from_u32`: `some` exactly on valid Unicode scalar values. -/
def char_from_u32 (n : Nat) : Option Char :=
  if h : n.isValidChar then some (Char.ofNatAux n h) else none

/-- `rng.gen_range(lo..hi)`: an arbitrary value of `[lo, hi)`, driven by the
raw entropy `raw`. -/
def gen_range (raw lo hi : Nat) : Nat :=
  lo + raw % (hi - lo)

/-- `slice::choose`: `none` on an empty slice, otherwise an arbitrary element,
driven by the raw entropy `raw`. -/
def sliceChoose (l : List Char) (raw : Nat) : Option Char :=
  l[raw % l.length]?

/-- The fixed three-byte characters of `RandomCharIter::next`. -/
def threeByteChars : List Char := ['✋', '✅', '❌', '❎', '⭐']

/-- The fixed four-byte characters of `RandomCharIter::next`. -/
def fourByteChars : List Char := ['🍐', '🏀', '🍗', '🎉']

/-- `RandomCharIter::next` (`src/zed/src/util.rs` lines 113–137): a chain of
weighted coin flips choosing newline, a Greek letter (the `from_u32` unwrap
modelled by the `Option`), a three-byte symbol, a four-byte pictograph, or a
lowercase ASCII letter. -/
def randomCharNext (r : RngDraws) : Option Char :=
  if r.coinNewline then
    some '\n'
  else if r.coinGreek then
    char_from_u32 (gen_range r.raw ('α' : Char).toNat (('ω' : Char).toNat + 1))
  else if r.coinThreeByte then
    sliceChoose threeByteChars r.raw
  else if r.coinFourByte then
    sliceChoose fourByteChars r.raw
  else
    char_from_u32 (gen_range r.raw ('a' : Char).toNat (('z' : Char).toNat + 1))

/-! ### The error-context adapter

`surf::Error` carries a status code and an inner `anyhow::Error`;
`anyhow::Error::context` wraps the error in one more layer of descriptive
context. We model the anyhow error as its stack of context messages (most
recent first) and `surf::Result<T>` as `Except SurfError T`. -/

/-- Model of `anyhow::Error`: the stack of context messages. -/
structure AnyhowError where
  contexts : List String

/-- `anyhow::Error::context`: wrap the error with one more message. -/
def AnyhowError.context (e : AnyhowError) (cx : String) : AnyhowError :=
  ⟨cx :: e.contexts⟩

/-- Model of `surf::Error`: an HTTP status classification plus the inner
`anyhow::Error`. -/
structure SurfError where
  status : Nat
  inner : AnyhowError

/-- `SurfResultExt::context`:
`self.map_err(|e| surf::Error::new(e.status(), e.into_inner().context(cx)))`. -/
def surfContext {τ : Type u} (r : Except SurfError τ) (cx : String) : Except SurfError τ :=
  r.mapError fun e => SurfError.mk e.status (e.inner.context cx)

/-- `SurfResultExt::with_context`:
`self.map_err(|e| surf::Error::new(e.status(), e.into_inner().context(f())))`. -/
def surfWithContext {τ : Type u} (r : Except SurfError τ) (f : Unit → String) :
    Except SurfError τ :=
  r.mapError fun e => SurfError.mk e.status (e.inner.context (f ()))

/-- The status classification of a result: `none` on success. -/
def surfStatus {τ : Type u} : Except SurfError τ → Option Nat
  | .ok _ => none
  | .error e => some e.status

/-! ### Specification of the binary search -/

/-- A vector is sorted under `cmp` when no earlier element compares greater
than a later one. -/
def SortedUnder (cmp : α → α → Ordering) (l : List α) : Prop :=
  l.Pairwise fun a b => cmp a b ≠ .gt

instance (cmp : α → α → Ordering) (l : List α) : Decidable (SortedUnder cmp l) :=
  inferInstanceAs (Decidable (l.Pairwise fun a b => cmp a b ≠ .gt))

/-- Characterization of `bsLoop` on a probe `f` that is monotone over `s`:
an `ok` result points at an exact match, an `error` result is the insertion
point splitting `s` into a strictly-less prefix and a strictly-greater
suffix. -/
theorem bsLoop_spec {f : α → Ordering} {s : List α}
    (mono_lt : ∀ j k (hj : j < s.length) (hk : k < s.length),
      j ≤ k → f s[k] = .lt → f s[j] = .lt)
    (mono_gt : ∀ j k (hj : j < s.length) (hk : k < s.length),
      j ≤ k → f s[j] = .gt → f s[k] = .gt) :
    ∀ fuel left right, right ≤ s.length → left ≤ right → right - left ≤ fuel →
      (∀ j (hj : j < s.length), j < left → f s[j] = .lt) →
      (∀ j (hj : j < s.length), right ≤ j → f s[j] = .gt) →
      match bsLoop f s fuel left right with
      | .ok i => ∃ (hi : i < s.length), f s[i] = .eq
      | .error i => i ≤ s.length ∧ (∀ j (hj : j < s.length), j < i → f s[j] = .lt) ∧
          (∀ j (hj : j < s.length), i ≤ j → f s[j] = .gt) := by
  intro fuel
  induction fuel with
  | zero =>
    intro left right hr hlr hfuel hlo hhi
    have hleft : left = right := by omega
    subst hleft
    exact ⟨by omega, fun j hj hji => hlo j hj hji, fun j hj hij => hhi j hj hij⟩
  | succ fuel ih =>
    intro left right hr hlr hfuel hlo hhi
    by_cases hlt : left < right
    · have hmidr : left + (right - left) / 2 < right := by
        have : (right - left) / 2 < right - left := Nat.div_lt_self (by omega) (by omega)
        omega
      have hmid : left + (right - left) / 2 < s.length := by omega
      rw [bsLoop, if_pos hlt]
      simp only [List.getElem?_eq_getElem hmid]
      cases hf : f s[left + (right - left) / 2] with
      | lt =>
        exact ih (left + (right - left) / 2 + 1) right hr (by omega) (by omega)
          (fun j hj hji => by
            rcases Nat.lt_or_ge j (left + (right - left) / 2) with hcase | hcase
            · exact mono_lt j (left + (right - left) / 2) hj hmid (by omega) hf
            · have : j = left + (right - left) / 2 := by omega
              subst this
              exact hf)
          hhi
      | gt =>
        exact ih left (left + (right - left) / 2) (by omega) (by omega) (by omega)
          hlo
          (fun j hj hij => mono_gt (left + (right - left) / 2) j hmid hj hij hf)
      | eq => exact ⟨hmid, hf⟩
    · have hleft : left = right := by omega
      subst hleft
      rw [bsLoop, if_neg hlt]
      exact ⟨by omega, fun j hj hji => hlo j hj hji, fun j hj hij => hhi j hj hij⟩

/-- Monotonicity of the probe `|m| cmp(m, new_item)` over a sorted slice:
downward closure of `lt`. -/
theorem probe_mono_lt {cmp : α → α → Ordering} (h : IsLawfulCmp cmp) {s : List α} {y : α}
    (hs : SortedUnder cmp s) :
    ∀ j k (hj : j < s.length) (hk : k < s.length),
      j ≤ k → cmp s[k] y = .lt → cmp s[j] y = .lt := by
  intro j k hj hk hjk hklt
  rcases Nat.lt_or_ge j k with hcase | hcase
  · have hle : cmp s[j] s[k] ≠ .gt :=
      (List.pairwise_iff_getElem.mp hs) j k hj hk hcase
    exact h.lt_of_le_of_lt hle hklt
  · have : j = k := by omega
    subst this
    exact hklt

/-- Monotonicity of the probe `|m| cmp(m, new_item)` over a sorted slice:
upward closure of `gt`. -/
theorem probe_mono_gt {cmp : α → α → Ordering} (h : IsLawfulCmp cmp) {s : List α} {y : α}
    (hs : SortedUnder cmp s) :
    ∀ j k (hj : j < s.length) (hk : k < s.length),
      j ≤ k → cmp s[j] y = .gt → cmp s[k] y = .gt := by
  intro j k hj hk hjk hjgt
  rcases Nat.lt_or_ge j k with hcase | hcase
  · have hle : cmp s[j] s[k] ≠ .gt :=
      (List.pairwise_iff_getElem.mp hs) j k hj hk hcase
    have hyj : cmp y s[j] = .lt := (h.gt_iff_lt _ _).mp hjgt
    have hyk : cmp y s[k] = .lt := h.lt_of_lt_of_le hyj hle
    exact (h.gt_iff_lt _ _).mpr hyk
  · have : j = k := by omega
    subst this
    exact hjgt

/-- `binary_search_by` on a sorted slice, `ok` case: an exact match exists at
the returned index. -/
theorem binary_search_by_ok {cmp : α → α → Ordering} (h : IsLawfulCmp cmp) {s : List α}
    {y : α} (hs : SortedUnder cmp s) {i : Nat}
    (hres : binary_search_by (fun m => cmp m y) s = .ok i) :
    ∃ (hi : i < s.length), cmp s[i] y = .eq := by
  have hspec := bsLoop_spec (f := fun m => cmp m y) (probe_mono_lt h hs)
    (probe_mono_gt h hs)
    s.length 0 s.length (Nat.le_refl _) (Nat.zero_le _) (by omega)
    (fun j hj hji => by omega) (fun j hj hij => by omega)
  rw [binary_search_by] at hres
  rw [hres] at hspec
  exact hspec

/-- `binary_search_by` on a sorted slice, `error` case: the returned index is
the insertion point, with a strictly-less prefix and strictly-greater
suffix. -/
theorem binary_search_by_error {cmp : α → α → Ordering} (h : IsLawfulCmp cmp) {s : List α}
    {y : α} (hs : SortedUnder cmp s) {i : Nat}
    (hres : binary_search_by (fun m => cmp m y) s = .error i) :
    i ≤ s.length ∧ (∀ j (hj : j < s.length), j < i → cmp s[j] y = .lt) ∧
      (∀ j (hj : j < s.length), i ≤ j → cmp s[j] y = .gt) := by
  have hspec := bsLoop_spec (f := fun m => cmp m y) (probe_mono_lt h hs)
    (probe_mono_gt h hs)
    s.length 0 s.length (Nat.le_refl _) (Nat.zero_le _) (by omega)
    (fun j hj hji => by omega) (fun j hj hij => by omega)
  rw [binary_search_by] at hres
  rw [hres] at hspec
  exact hspec

/-- On a sorted slice containing an element that compares equal to the probe
target, `binary_search_by` reports an exact match. -/
theorem binary_search_by_finds_eq {cmp : α → α → Ordering} (h : IsLawfulCmp cmp)
    {s : List α} {y : α} (hs : SortedUnder cmp s) {x : α} (hx : x ∈ s)
    (hxy : cmp x y = .eq) : ∃ i, binary_search_by (fun m => cmp m y) s = .ok i := by
  cases hres : binary_search_by (fun m => cmp m y) s with
  | ok i => exact ⟨i, rfl⟩
  | error i =>
    exfalso
    obtain ⟨hi, hlo, hhi⟩ := binary_search_by_error h hs hres
    obtain ⟨j, hj, hxj⟩ := List.getElem_of_mem hx
    rcases Nat.lt_or_ge j i with hcase | hcase
    · have := hlo j hj hcase
      rw [hxj, hxy] at this
      exact absurd this (by simp)
    · have := hhi j hj hcase
      rw [hxj, hxy] at this
      exact absurd this (by simp)

/-! ### Helper lemmas on list surgery -/

/-- `insertIdx` at an in-bounds position splits the list at that position. -/
theorem insertIdx_eq_take_cons_drop :
    ∀ (l : List α) (n : Nat) (x : α), n ≤ l.length →
      l.insertIdx n x = l.take n ++ x :: l.drop n := by
  intro l
  induction l with
  | nil =>
    intro n x hn
    have : n = 0 := by simpa using hn
    subst this
    rfl
  | cons a l ih =>
    intro n x hn
    cases n with
    | zero => rfl
    | succ m =>
      simp only [List.insertIdx_succ_cons, List.take_succ_cons, List.drop_succ_cons,
        List.cons_append, List.cons.injEq, true_and]
      exact ih m x (by simpa using hn)

/-- A list is a sublist of any single insertion into it. -/
theorem sublist_insertIdx (l : List α) (n : Nat) (x : α) :
    List.Sublist l (l.insertIdx n x) := by
  rcases Nat.lt_or_ge l.length n |>.symm with hn | hn
  · rw [insertIdx_eq_take_cons_drop l n x hn]
    have h₁ : List.Sublist (l.drop n) (x :: l.drop n) := List.sublist_cons_self x (l.drop n)
    have h₂ := List.Sublist.append_left h₁ (l.take n)
    rw [List.take_append_drop n l] at h₂
    exact h₂
  · rw [List.insertIdx_of_length_lt l x n hn]

/-- `dropLast` is monotone with respect to the sublist order. -/
theorem Sublist.dropLast_mono {l₁ l₂ : List α} (h : List.Sublist l₁ l₂) :
    List.Sublist l₁.dropLast l₂.dropLast := by
  induction h with
  | slnil => exact List.Sublist.refl _
  | cons a h ih =>
    rename_i u v
    cases v with
    | nil =>
      have hu : u = [] := List.sublist_nil.mp h
      subst hu
      simp
    | cons b t =>
      have h₂ : List.Sublist (b :: t).dropLast (a :: b :: t).dropLast := by
        simp only [List.dropLast_cons₂]
        exact List.sublist_cons_self a (b :: t).dropLast
      exact ih.trans h₂
  | cons₂ a h ih =>
    rename_i u v
    cases v with
    | nil =>
      have hu : u = [] := List.sublist_nil.mp h
      subst hu
      simp
    | cons b t =>
      cases u with
      | nil => simp
      | cons c w =>
        simp only [List.dropLast_cons₂]
        exact List.Sublist.cons₂ a ih

/-- Inserting `y` at position `n` preserves sortedness when everything before
the split compares less than `y` and everything after compares greater. -/
theorem sortedUnder_insertIdx {cmp : α → α → Ordering} (h : IsLawfulCmp cmp)
    {l : List α} {y : α} {n : Nat} (hs : SortedUnder cmp l) (hn : n ≤ l.length)
    (hlo : ∀ x ∈ l.take n, cmp x y = .lt) (hhi : ∀ x ∈ l.drop n, cmp x y = .gt) :
    SortedUnder cmp (l.insertIdx n y) := by
  rw [insertIdx_eq_take_cons_drop l n y hn]
  rw [SortedUnder, List.pairwise_append]
  have hsplit : l.take n ++ l.drop n = l := List.take_append_drop n l
  have hpair : (l.take n ++ l.drop n).Pairwise fun a b => cmp a b ≠ .gt := by
    rw [hsplit]
    exact hs
  obtain ⟨hp₁, hp₂, hp₁₂⟩ := List.pairwise_append.mp hpair
  refine ⟨hp₁, ?_, ?_⟩
  · rw [List.pairwise_cons]
    refine ⟨?_, hp₂⟩
    intro b hb
    have : cmp b y = .gt := hhi b hb
    have : cmp y b = .lt := (h.gt_iff_lt b y).mp this
    simp [this]
  · intro a ha b hb
    rcases List.mem_cons.mp hb with rfl | hb'
    · have : cmp a b = .lt := hlo a ha
      simp [this]
    · exact hp₁₂ a ha b hb'

/-- Sortedness restricts to sublists. -/
theorem SortedUnder.sublist {cmp : α → α → Ordering} {l₁ l₂ : List α}
    (hs : SortedUnder cmp l₂) (h : List.Sublist l₁ l₂) : SortedUnder cmp l₁ :=
  List.Pairwise.sublist h hs

/-! ### The central invariant of the merge loop -/

/-- Invariant carried through the `extend_sorted` loop: the vector is sorted
and within the limit, the search floor is in bounds, and every element
strictly before the floor compares less than every item still to be
processed. -/
structure StepInv (cmp : α → α → Ordering) (limit : Nat) (rest : List α)
    (st : List α × Nat) : Prop where
  sorted : SortedUnder cmp st.1
  len_le : st.1.length ≤ limit
  floor_le : st.2 ≤ st.1.length
  floor_lt : ∀ y ∈ rest, ∀ x ∈ st.1.take st.2, cmp x y = .lt

/-- Processing one new item preserves the invariant, provided the item is at
most every remaining item. -/
theorem stepInv_preserved {cmp : α → α → Ordering} (h : IsLawfulCmp cmp) {limit : Nat}
    {y : α} {rest : List α} {vec : List α} {s : Nat}
    (inv : StepInv cmp limit (y :: rest) (vec, s))
    (hy : ∀ z ∈ rest, cmp y z ≠ .gt) :
    StepInv cmp limit rest (extendSortedStep cmp limit (vec, s) y) := by
  obtain ⟨hsorted, hlen, hfloor, hpre⟩ := inv
  dsimp only at hsorted hlen hfloor hpre
  have hsuffix : SortedUnder cmp (vec.drop s) := hsorted.sublist (List.drop_sublist s vec)
  cases hres : binary_search_by (fun m => cmp m y) (vec.drop s) with
  | ok j =>
    simp only [extendSortedStep, hres]
    exact ⟨hsorted, hlen, hfloor, fun z hz x hx => hpre z (List.mem_cons_of_mem y hz) x hx⟩
  | error i =>
    obtain ⟨hi_le, hlo, hhi⟩ := binary_search_by_error h hsuffix hres
    rw [List.length_drop] at hi_le
    have hindex_le : s + i ≤ vec.length := by omega
    have hA : ∀ x ∈ vec.take (s + i), cmp x y = .lt := by
      intro x hx
      rw [List.take_add] at hx
      rcases List.mem_append.mp hx with hx1 | hx2
      · exact hpre y (List.mem_cons_self y rest) x hx1
      · obtain ⟨j, hj, hjx⟩ := List.mem_take_iff_getElem.mp hx2
        have hj' : j < (vec.drop s).length := by
          rw [List.length_drop]
          omega
        have := hlo j hj' (by omega)
        rw [hjx] at this
        exact this
    have hB : ∀ x ∈ vec.drop (s + i), cmp x y = .gt := by
      intro x hx
      rw [← List.drop_drop] at hx
      obtain ⟨k, hk, hkx⟩ := List.mem_drop_iff_getElem.mp hx
      have := hhi (i + k) (by omega) (by omega)
      rw [hkx] at this
      exact this
    simp only [extendSortedStep, hres]
    by_cases hcap : vec.length < limit
    · rw [if_pos hcap]
      have hlen' : (vec.insertIdx (s + i) y).length = vec.length + 1 :=
        List.length_insertIdx (s + i) vec hindex_le
      refine ⟨?_, ?_, ?_, ?_⟩
      · exact sortedUnder_insertIdx h hsorted hindex_le hA hB
      · dsimp only
        omega
      · dsimp only
        omega
      · intro z hz x hx
        dsimp only at hx
        have htake : (vec.insertIdx (s + i) y).take (s + i) = vec.take (s + i) := by
          rw [insertIdx_eq_take_cons_drop vec (s + i) y hindex_le,
            List.take_left' (List.length_take_of_le hindex_le)]
        rw [htake] at hx
        exact h.lt_of_lt_of_le (hA x hx) (hy z hz)
    · rw [if_neg hcap]
      by_cases hlast : s + i < vec.length
      · rw [if_pos hlast]
        have hdl_len : vec.dropLast.length = vec.length - 1 := List.length_dropLast vec
        have hidx_le : s + i ≤ vec.dropLast.length := by omega
        have htake_dl : vec.dropLast.take (s + i) = vec.take (s + i) := by
          rw [List.dropLast_eq_take, List.take_take]
          congr 1
          omega
        have hA' : ∀ x ∈ vec.dropLast.take (s + i), cmp x y = .lt := by
          intro x hx
          rw [htake_dl] at hx
          exact hA x hx
        have hB' : ∀ x ∈ vec.dropLast.drop (s + i), cmp x y = .gt := by
          intro x hx
          have hsub : List.Sublist (vec.dropLast.drop (s + i)) (vec.drop (s + i)) := by
            rw [List.dropLast_eq_take, List.drop_take]
            exact List.take_sublist _ _
          exact hB x (hsub.subset hx)
        have hlen' : (vec.dropLast.insertIdx (s + i) y).length = vec.length :=
          by rw [List.length_insertIdx (s + i) vec.dropLast hidx_le, hdl_len]; omega
        refine ⟨?_, ?_, ?_, ?_⟩
        · exact sortedUnder_insertIdx h (hsorted.sublist (List.dropLast_sublist vec))
            hidx_le hA' hB'
        · dsimp only
          omega
        · dsimp only
          omega
        · intro z hz x hx
          dsimp only at hx
          have htake2 : (vec.dropLast.insertIdx (s + i) y).take (s + i) = vec.take (s + i) := by
            rw [insertIdx_eq_take_cons_drop vec.dropLast (s + i) y hidx_le,
              List.take_left' (List.length_take_of_le hidx_le), htake_dl]
          rw [htake2] at hx
          exact h.lt_of_lt_of_le (hA x hx) (hy z hz)
      · rw [if_neg hlast]
        have hieq : s + i = vec.length := by omega
        refine ⟨hsorted, hlen, by dsimp only; omega, ?_⟩
        intro z hz x hx
        dsimp only at hx
        rw [hieq, List.take_length] at hx
        have hx' : x ∈ vec.take s ++ vec.drop s := by
          rw [List.take_append_drop]
          exact hx
        have hxlt : cmp x y = .lt := by
          rcases List.mem_append.mp hx' with h1 | h2
          · exact hpre y (List.mem_cons_self y rest) x h1
          · obtain ⟨j, hj, hjx⟩ := List.getElem_of_mem h2
            have hjlt : j < i := by
              rw [List.length_drop] at hj
              omega
            have := hlo j hj hjlt
            rw [hjx] at this
            exact this
        exact h.lt_of_lt_of_le hxlt (hy z hz)

/-- The invariant is preserved across the whole merge. -/
theorem foldl_stepInv {cmp : α → α → Ordering} (h : IsLawfulCmp cmp) {limit : Nat} :
    ∀ (new_items : List α) (st : List α × Nat),
      StepInv cmp limit new_items st → SortedUnder cmp new_items →
      StepInv cmp limit [] (new_items.foldl (extendSortedStep cmp limit) st) := by
  intro new_items
  induction new_items with
  | nil =>
    intro st inv _
    exact inv
  | cons y rest ih =>
    intro st inv hsn
    rw [List.foldl_cons]
    obtain ⟨hy, hrest⟩ := List.pairwise_cons.mp hsn
    obtain ⟨vec, s⟩ := st
    exact ih _ (stepInv_preserved h inv hy) hrest

/-- `Nat.compare` is a lawful comparator. -/
theorem isLawfulCmp_natCompare : IsLawfulCmp (compare : Nat → Nat → Ordering) := by
  constructor
  · intro a b
    rcases Nat.lt_trichotomy a b with hab | hab | hab
    · rw [Nat.compare_eq_lt.mpr hab, Nat.compare_eq_gt.mpr hab]
      rfl
    · subst hab
      rw [Nat.compare_eq_eq.mpr rfl]
      rfl
    · rw [Nat.compare_eq_gt.mpr hab, Nat.compare_eq_lt.mpr hab]
      rfl
  · intro a b c hab hbc hac
    rw [Nat.compare_eq_gt] at hac
    have h1 : ¬ b < a := fun hh => hab (Nat.compare_eq_gt.mpr hh)
    have h2 : ¬ c < b := fun hh => hbc (Nat.compare_eq_gt.mpr hh)
    omega

/-! ### The claims about `extend_sorted` -/

/-- C1: for every container `vec` sorted under `cmp` with `vec.length ≤ limit`
and every `new_items` sequence sorted ascending under the same lawful `cmp`,
after `extend_sorted vec new_items limit cmp` the container is sorted under
`cmp` and its length is at most `limit`. -/
theorem extend_sorted_sortedness_invariant {cmp : α → α → Ordering}
    {vec new_items : List α} {limit : Nat} (h : IsLawfulCmp cmp)
    (hvec : SortedUnder cmp vec) (hlen : vec.length ≤ limit)
    (hnew : SortedUnder cmp new_items) :
    SortedUnder cmp (extend_sorted vec new_items limit cmp) ∧
      (extend_sorted vec new_items limit cmp).length ≤ limit := by
  have hinv : StepInv cmp limit new_items (vec, 0) := by
    refine ⟨hvec, hlen, Nat.zero_le _, ?_⟩
    intro y hy x hx
    simp at hx
  have hfinal := foldl_stepInv h new_items (vec, 0) hinv hnew
  exact ⟨hfinal.sorted, hfinal.len_le⟩

/-- Witness for C1 at a concrete input. -/
theorem extend_sorted_sortedness_invariant_witness :
    SortedUnder compare (extend_sorted [1, 3] [2, 4] 3 (compare : Nat → Nat → Ordering)) ∧
      (extend_sorted [1, 3] [2, 4] 3 (compare : Nat → Nat → Ordering)).length ≤ 3 :=
  extend_sorted_sortedness_invariant isLawfulCmp_natCompare
    (by decide) (by decide) (by decide)

/-- C6: the concrete three-merge scenario of the repository's
`test_extend_sorted`, with the descending numeric comparator. -/
theorem extend_sorted_concrete_scenario :
    extend_sorted [] [21, 17, 13, 8, 1, 0] 5 descCmp = [21, 17, 13, 8, 1] ∧
      extend_sorted (extend_sorted [] [21, 17, 13, 8, 1, 0] 5 descCmp)
        [101, 19, 17, 8, 2] 8 descCmp = [101, 21, 19, 17, 13, 8, 2, 1] ∧
      extend_sorted
        (extend_sorted (extend_sorted [] [21, 17, 13, 8, 1, 0] 5 descCmp)
          [101, 19, 17, 8, 2] 8 descCmp)
        [1000, 19, 17, 9, 5] 8 descCmp = [1000, 101, 21, 19, 17, 13, 9, 8] := by
  refine ⟨by decide, by decide, by decide⟩

/-- C2 is false on the code: a sorted, full container (`length == limit`)
receiving an item whose binary-search insertion index equals `length - 1`
(which is `>= length - 1`, so the claim predicts no change) IS mutated — the
last element is evicted and the item inserted in its place. Concretely,
`[10, 30]` with limit `2` receiving `20` (insertion index `1 = length - 1`)
becomes `[10, 20]`. -/
theorem full_container_insert_at_last_index_mutates :
    SortedUnder compare ([10, 30] : List Nat) ∧
      ([10, 30] : List Nat).length = 2 ∧
      binary_search_by (fun m => compare m 20) ([10, 30] : List Nat) = .error 1 ∧
      extend_sorted [10, 30] [20] 2 (compare : Nat → Nat → Ordering) = [10, 20] ∧
      extend_sorted [10, 30] [20] 2 (compare : Nat → Nat → Ordering) ≠ [10, 30] := by
  refine ⟨by decide, by decide, rfl, by decide, by decide⟩

/-- C2 (amended): a full container (`length == limit`) is left unchanged
exactly when the reported insertion index is at or past the end
(`index ≥ length`); when `index < length` — i.e. whenever the new item sorts
strictly before the current last element — the last element is evicted and
the item is inserted. -/
theorem full_container_unchanged_iff_index_at_end {cmp : α → α → Ordering} {limit : Nat}
    {vec : List α} {s : Nat} {y : α} {i : Nat} (hfull : vec.length = limit)
    (hres : binary_search_by (fun m => cmp m y) (vec.drop s) = .error i) :
    (vec.length ≤ s + i → (extendSortedStep cmp limit (vec, s) y).1 = vec) ∧
      (s + i < vec.length →
        (extendSortedStep cmp limit (vec, s) y).1 = vec.dropLast.insertIdx (s + i) y) := by
  constructor
  · intro hge
    simp only [extendSortedStep, hres]
    rw [if_neg (by omega), if_neg (by omega)]
  · intro hlt
    simp only [extendSortedStep, hres]
    rw [if_neg (by omega), if_pos hlt]

/-- Witness for the amended C2 at a concrete input: a full `[10, 30]` with
limit `2` discards `40` (insertion index `2 = length`) and evicts for `20`
(insertion index `1 < length`). -/
theorem full_container_unchanged_iff_index_at_end_witness :
    ((([10, 30] : List Nat).length ≤ 0 + 2 →
        (extendSortedStep compare 2 ([10, 30], 0) 40).1 = [10, 30]) ∧
      (0 + 2 < ([10, 30] : List Nat).length →
        (extendSortedStep compare 2 ([10, 30], 0) 40).1
          = ([10, 30] : List Nat).dropLast.insertIdx (0 + 2) 40)) ∧
    ((([10, 30] : List Nat).length ≤ 0 + 1 →
        (extendSortedStep compare 2 ([10, 30], 0) 20).1 = [10, 30]) ∧
      (0 + 1 < ([10, 30] : List Nat).length →
        (extendSortedStep compare 2 ([10, 30], 0) 20).1
          = ([10, 30] : List Nat).dropLast.insertIdx (0 + 1) 20)) :=
  ⟨full_container_unchanged_iff_index_at_end rfl rfl,
    full_container_unchanged_iff_index_at_end rfl rfl⟩

/-- C3 is false on the code: on an exact match the item is skipped but the
search floor is NOT advanced to the match index — `start_index` is assigned
only in the no-match branch. Concretely, from state `([1, 2, 3], 0)` the
item `2` matches at absolute index `1`, yet the resulting floor is `0`,
not `1`. -/
theorem exact_match_leaves_floor_unchanged_counterexample :
    binary_search_by (fun m => compare m 2) (([1, 2, 3] : List Nat).drop 0) = .ok 1 ∧
      extendSortedStep (compare : Nat → Nat → Ordering) 10 ([1, 2, 3], 0) 2 = ([1, 2, 3], 0) ∧
      (extendSortedStep (compare : Nat → Nat → Ordering) 10 ([1, 2, 3], 0) 2).2 ≠ 1 := by
  refine ⟨rfl, by decide, by decide⟩

/-- C3 (amended): when the binary search over the container suffix starting
at the current floor reports an exact match, the item is skipped and the
whole state — container AND search floor — is left unchanged; the floor is
not advanced to the match index. -/
theorem exact_match_skips_item_and_keeps_state {cmp : α → α → Ordering} {limit : Nat}
    {vec : List α} {s : Nat} {y : α} {j : Nat}
    (hres : binary_search_by (fun m => cmp m y) (vec.drop s) = .ok j) :
    extendSortedStep cmp limit (vec, s) y = (vec, s) := by
  simp only [extendSortedStep, hres]

/-- Witness for the amended C3 at a concrete input. -/
theorem exact_match_skips_item_and_keeps_state_witness :
    extendSortedStep (compare : Nat → Nat → Ordering) 10 ([1, 2, 3], 0) 2 = ([1, 2, 3], 0) :=
  exact_match_skips_item_and_keeps_state (j := 1) rfl

/-- C4: a full container (`length == limit`) receiving a new item whose
insertion index is strictly before the end — i.e. the item sorts strictly
before the current last element — evicts the previous last element, inserts
the new item at its sorted position, and keeps the length at `limit`. -/
theorem full_container_eviction {cmp : α → α → Ordering} {limit : Nat}
    {vec : List α} {s : Nat} {y : α} {i : Nat} (hfull : vec.length = limit)
    (hres : binary_search_by (fun m => cmp m y) (vec.drop s) = .error i)
    (hlt : s + i < vec.length) :
    (extendSortedStep cmp limit (vec, s) y).1 = vec.dropLast.insertIdx (s + i) y ∧
      (extendSortedStep cmp limit (vec, s) y).1.length = limit := by
  have hstep : (extendSortedStep cmp limit (vec, s) y).1 = vec.dropLast.insertIdx (s + i) y := by
    simp only [extendSortedStep, hres]
    rw [if_neg (by omega), if_pos hlt]
  refine ⟨hstep, ?_⟩
  rw [hstep, List.length_insertIdx (s + i) vec.dropLast (by rw [List.length_dropLast]; omega),
    List.length_dropLast]
  omega

/-- Witness for C4 at a concrete input: full `[10, 30]` with limit `2`
receiving `20` becomes `[10, 20]`, still of length `2`. -/
theorem full_container_eviction_witness :
    (extendSortedStep (compare : Nat → Nat → Ordering) 2 ([10, 30], 0) 20).1
        = ([10, 30] : List Nat).dropLast.insertIdx (0 + 1) 20 ∧
      (extendSortedStep (compare : Nat → Nat → Ordering) 2 ([10, 30], 0) 20).1.length = 2 :=
  full_container_eviction rfl rfl (by decide)

/-- C5: a new item that compares equal to some element of the searched
container suffix is dropped: the search reports an exact match, so the
container is not mutated by that item and the equal element is left
untouched. -/
theorem equal_item_dropped {cmp : α → α → Ordering} (h : IsLawfulCmp cmp) {limit : Nat}
    {vec : List α} {s : Nat} {y : α} (hs : SortedUnder cmp (vec.drop s))
    (hmem : ∃ x ∈ vec.drop s, cmp x y = .eq) :
    extendSortedStep cmp limit (vec, s) y = (vec, s) := by
  obtain ⟨x, hx, hxy⟩ := hmem
  obtain ⟨j, hres⟩ := binary_search_by_finds_eq h hs hx hxy
  simp only [extendSortedStep, hres]

/-- Witness for C5 at a concrete input. -/
theorem equal_item_dropped_witness :
    extendSortedStep (compare : Nat → Nat → Ordering) 10 ([1, 2, 3], 1) 2 = ([1, 2, 3], 1) :=
  equal_item_dropped isLawfulCmp_natCompare (by decide) ⟨2, by decide, by decide⟩

/-! ### The frame property of the merge -/

/-- One step of the merge mutates the container in one of exactly three ways:
not at all, by one insertion, or by removing the current last element and
inserting the item. -/
theorem extendSortedStep_frame (cmp : α → α → Ordering) (limit : Nat) (vec : List α)
    (s : Nat) (y : α) :
    (extendSortedStep cmp limit (vec, s) y).1 = vec ∨
      (∃ i, i ≤ vec.length ∧ (extendSortedStep cmp limit (vec, s) y).1 = vec.insertIdx i y) ∨
      (∃ i, i < vec.length ∧
        (extendSortedStep cmp limit (vec, s) y).1 = vec.dropLast.insertIdx i y) := by
  cases hres : binary_search_by (fun m => cmp m y) (vec.drop s) with
  | ok j =>
    left
    simp only [extendSortedStep, hres]
  | error i =>
    simp only [extendSortedStep, hres]
    by_cases hcap : vec.length < limit
    · rw [if_pos hcap]
      rcases Nat.lt_or_ge vec.length (s + i) with hgt | hle
      · left
        exact List.insertIdx_of_length_lt vec y (s + i) hgt
      · right
        left
        exact ⟨s + i, hle, rfl⟩
    · rw [if_neg hcap]
      by_cases hlast : s + i < vec.length
      · rw [if_pos hlast]
        right
        right
        exact ⟨s + i, hlast, rfl⟩
      · rw [if_neg hlast]
        left
        rfl

/-- Through any run of the merge loop, some prefix of the original container
survives as a sublist of the current container. -/
theorem take_sublist_extendSorted_foldl {cmp : α → α → Ordering} {limit : Nat}
    (vec0 : List α) :
    ∀ (items : List α) (st : List α × Nat) (k : Nat), k ≤ vec0.length →
      List.Sublist (vec0.take k) st.1 →
      ∃ m, m ≤ vec0.length ∧
        List.Sublist (vec0.take m) ((items.foldl (extendSortedStep cmp limit) st).1) := by
  intro items
  induction items with
  | nil =>
    intro st k hk hsub
    exact ⟨k, hk, hsub⟩
  | cons y rest ih =>
    intro st k hk hsub
    rw [List.foldl_cons]
    obtain ⟨vec, s⟩ := st
    dsimp only at hsub
    rcases extendSortedStep_frame cmp limit vec s y with hcase | ⟨i, hi, hcase⟩ | ⟨i, hi, hcase⟩
    · refine ih _ k hk ?_
      rw [hcase]
      exact hsub
    · refine ih _ k hk ?_
      rw [hcase]
      exact hsub.trans (sublist_insertIdx vec i y)
    · have h1 : List.Sublist (vec0.take k).dropLast vec.dropLast :=
        Sublist.dropLast_mono hsub
      have h2 : (vec0.take k).dropLast = vec0.take (min k vec0.length - 1) := by
        rw [List.dropLast_eq_take, List.length_take, List.take_take]
        congr 1
        omega
      refine ih _ (min k vec0.length - 1) (by omega) ?_
      rw [hcase]
      rw [h2] at h1
      exact h1.trans (sublist_insertIdx vec.dropLast i y)

/-- C10: the frame property of `extend_sorted`: each processed new item
either leaves the container unchanged, inserts one element without removing
any, or removes exactly the container's current last element and inserts the
item at an interior position; consequently a prefix of the original
container survives in the result in its original order with its original
values. -/
theorem extend_sorted_frame_property (cmp : α → α → Ordering) (limit : Nat)
    (vec new_items : List α) :
    (∀ (s : Nat) (y : α),
        (extendSortedStep cmp limit (vec, s) y).1 = vec ∨
          (∃ i, i ≤ vec.length ∧
            (extendSortedStep cmp limit (vec, s) y).1 = vec.insertIdx i y) ∨
          (∃ i, i < vec.length ∧
            (extendSortedStep cmp limit (vec, s) y).1 = vec.dropLast.insertIdx i y)) ∧
      ∃ k, k ≤ vec.length ∧
        List.Sublist (vec.take k) (extend_sorted vec new_items limit cmp) := by
  constructor
  · intro s y
    exact extendSortedStep_frame cmp limit vec s y
  · exact take_sublist_extendSorted_foldl vec new_items (vec, 0) vec.length (Nat.le_refl _)
      (by rw [List.take_length])

/-! ### The claims about the remaining components -/

/-- C7: over any finite message sequence, the dispatch loop invokes the
handler exactly once per message, strictly in arrival order, records each
result, logs every failure while continuing to the next message, and — being
a total function of the finite message list — terminates exactly when the
source is exhausted. -/
theorem dispatchLoop_invokes_each_in_order {M E : Type u} (handler : M → Except E Unit)
    (msgs : List M) :
    ((dispatchLoop handler msgs).1).map Prod.fst = msgs ∧
      ((dispatchLoop handler msgs).1).map Prod.snd = msgs.map handler ∧
      (dispatchLoop handler msgs).2 = msgs.filterMap (fun m =>
        match handler m with
        | .error e => some e
        | .ok _ => none) := by
  induction msgs with
  | nil => exact ⟨rfl, rfl, rfl⟩
  | cons m rest ih =>
    obtain ⟨h1, h2, h3⟩ := ih
    refine ⟨?_, ?_, ?_⟩
    · simp only [dispatchLoop, List.map_cons, h1]
    · simp only [dispatchLoop, List.map_cons, h2]
    · simp only [dispatchLoop, List.filterMap_cons]
      cases hm : handler m with
      | ok u => simp only [h3]
      | error e => simp only [h3]

/-- C8: for every state of the random source, `RandomCharIter::next` yields a
character: every branch is total, and in particular the `from_u32` unwrap in
the Greek-letter branch always succeeds because every code point drawn from
the inclusive range α..ω is a valid Unicode scalar value. -/
theorem randomCharNext_isSome (r : RngDraws) : (randomCharNext r).isSome = true := by
  rw [randomCharNext]
  by_cases h1 : r.coinNewline
  · rw [if_pos h1]
    rfl
  · rw [if_neg h1]
    by_cases h2 : r.coinGreek
    · rw [if_pos h2]
      have hmod : r.raw % 25 < 25 := Nat.mod_lt _ (by omega)
      have heq : gen_range r.raw ('α' : Char).toNat (('ω' : Char).toNat + 1)
          = 945 + r.raw % 25 := rfl
      have hval : (gen_range r.raw ('α' : Char).toNat (('ω' : Char).toNat + 1)).isValidChar := by
        rw [heq]
        exact Or.inl (by omega)
      rw [char_from_u32, dif_pos hval]
      rfl
    · rw [if_neg h2]
      by_cases h3 : r.coinThreeByte
      · rw [if_pos h3]
        have hlt : r.raw % threeByteChars.length < threeByteChars.length :=
          Nat.mod_lt _ (by decide)
        rw [sliceChoose, List.getElem?_eq_getElem hlt]
        rfl
      · rw [if_neg h3]
        by_cases h4 : r.coinFourByte
        · rw [if_pos h4]
          have hlt : r.raw % fourByteChars.length < fourByteChars.length :=
            Nat.mod_lt _ (by decide)
          rw [sliceChoose, List.getElem?_eq_getElem hlt]
          rfl
        · rw [if_neg h4]
          have hmod : r.raw % 26 < 26 := Nat.mod_lt _ (by omega)
          have heq : gen_range r.raw ('a' : Char).toNat (('z' : Char).toNat + 1)
              = 97 + r.raw % 26 := rfl
          have hval :
              (gen_range r.raw ('a' : Char).toNat (('z' : Char).toNat + 1)).isValidChar := by
            rw [heq]
            exact Or.inl (by omega)
          rw [char_from_u32, dif_pos hval]
          rfl

/-- C9: the error-context adapter introduces no new failure: on a success
both `context` and `with_context` return the value unchanged — for every
message factory, so the factory is never consulted — and on a failure both
return a failure carrying the original status, with the descriptive message
enriched by exactly one context layer. -/
theorem surf_adapters_preserve_classification {τ : Type u} (v : τ) (e : SurfError)
    (c : String) (f : Unit → String) :
    surfContext (Except.ok v) c = Except.ok v ∧
      surfWithContext (Except.ok v) f = Except.ok v ∧
      surfContext (Except.error e : Except SurfError τ) c
        = Except.error ⟨e.status, ⟨c :: e.inner.contexts⟩⟩ ∧
      surfWithContext (Except.error e : Except SurfError τ) f
        = Except.error ⟨e.status, ⟨f () :: e.inner.contexts⟩⟩ ∧
      surfStatus (surfContext (Except.error e : Except SurfError τ) c) = some e.status ∧
      surfStatus (surfWithContext (Except.error e : Except SurfError τ) f) = some e.status :=
  ⟨rfl, rfl, rfl, rfl, rfl, rfl⟩

end ZedUtil
